import Mathlib

/-
Formal model of `src/tools/windows/msi/create_wxs.py` (WXS generator for the
WiX toolset).  The script walks a directory tree with `os.walk`, mirrors the
hierarchy into WiX `Directory` elements, emits one `Component`/`File` pair per
file, detects the application executable `MView6.exe` under a `bin` directory,
and attaches shortcut and file-association records to it.

Modelling conventions:
* Relative paths are lists of path components (`List String`); the Python code
  stores them as `os.path.sep`-joined strings.  For separator-free, non-empty
  components, joining and splitting are mutually inverse, so the list form is
  an exact model; the root's relative path `""` is modelled by `[]`.
* `uuid.uuid4()` draws are modelled by a stream `tok : Nat → String` of token
  strings (one per potential draw) passed to the generator.
* Python's Unicode `str.lower()` is modelled by ASCII case folding
  (`Char.toLower` on each character), which is exact on ASCII data.
* The XML document is modelled by structured records that carry exactly the
  attributes the WiX output receives.
-/

namespace CreateWxs

/-- ASCII word characters: the character class kept by the regular expression
substitution `re.sub(r"[^a-zA-Z0-9_]", "_", name)`. -/
def isWordChar (c : Char) : Bool :=
  ('a' ≤ c && c ≤ 'z') || ('A' ≤ c && c ≤ 'Z') || ('0' ≤ c && c ≤ '9') || c == '_'

/-- The substitution `re.sub(r"[^a-zA-Z0-9_]", "_", name)`: every character that
is not an ASCII letter, digit or underscore is replaced by an underscore. -/
def pySub (s : String) : String :=
  ⟨s.data.map (fun c => if isWordChar c then c else '_')⟩

/-- Python `str.lower()`, ASCII case folding applied to each character. -/
def pyLower (s : String) : String := ⟨s.data.map Char.toLower⟩

/-- The function `sanitize_id` of create_wxs.py.  `tok` stands for the random
hex string `str(uuid.uuid4()).replace("-", "")` that the Python code would draw
in the empty-name fallback branch (the draw happens only in that branch). -/
def sanitize_id (name : String) (tok : String) : String :=
  let n1 := pySub name
  let n2 := match n1.data with
    | [] => n1
    | c :: _ => if c.isDigit then "id_" ++ n1 else n1
  if n2 = "" then "id_" ++ tok else n2

/-- The stem `os.path.splitext(filename)[0]` of a bare file name (no path
separators): split at the last dot, unless every character before that dot is
itself a dot (CPython's leading-dot rule), in which case nothing is split. -/
def splitextStem (p : String) : String :=
  let before := ((p.data.reverse.dropWhile (fun c => c != '.')).tail).reverse
  if before.any (fun c => c != '.') then ⟨before⟩ else p

/-- Decimal digit list of a natural number, most significant digit first.
Reference function used to reason about the core function `Nat.repr`. -/
def decDigits (n : Nat) : List Char :=
  if h : n < 10 then [Nat.digitChar n]
  else decDigits (n / 10) ++ [Nat.digitChar (n % 10)]
termination_by n
decreasing_by
  exact Nat.div_lt_self (by omega) (by norm_num)

/-- Numeric value of a decimal digit character. -/
def charVal (c : Char) : Nat := c.toNat - '0'.toNat

/-- Evaluation of a most-significant-first decimal digit list. -/
def decValAux (l : List Char) : Nat := l.foldl (fun a c => 10 * a + charVal c) 0

/-- The prefix order on component lists: `listPre a b` holds when `a` is an
initial segment of `b`. -/
def listPre (a b : List String) : Prop := b.take a.length = a

instance (a b : List String) : Decidable (listPre a b) := by
  unfold listPre; infer_instance

/-- A filesystem subtree: a directory with its name, subdirectories (in
`os.walk` listing order) and file names. -/
inductive FSTree where
  | node (name : String) (subdirs : List FSTree) (files : List String)

/-- Name of the root directory of a subtree. -/
def FSTree.name : FSTree → String
  | .node n _ _ => n

/-- Subdirectories of the root of a subtree. -/
def FSTree.subdirs : FSTree → List FSTree
  | .node _ subs _ => subs

/-- File names in the root of a subtree. -/
def FSTree.files : FSTree → List String
  | .node _ _ fs => fs

/-- One item yielded by `os.walk`: the directory's path relative to the walk
root, and the file names it contains. -/
structure WalkEntry where
  relParts : List String
  filenames : List String
deriving DecidableEq

mutual

/-- The sequence of `(dirpath, filenames)` pairs yielded by a top-down
`os.walk` of subtree `t` sitting at relative path `pre`: the directory itself
first, then its subdirectories recursively, in listing order. -/
def walkTree : FSTree → List String → List WalkEntry
  | FSTree.node _ subs files, pre => ⟨pre, files⟩ :: walkForest subs pre

/-- The walk entries contributed by a list of sibling subtrees. -/
def walkForest : List FSTree → List String → List WalkEntry
  | [], _ => []
  | c :: cs, pre => walkTree c (pre ++ [c.name]) ++ walkForest cs pre

end

/-- Structural induction for `FSTree` with the induction hypothesis available
for every member of the subdirectory list. -/
def FSTree.strongInd {P : FSTree → Prop}
    (h : ∀ n subs files, (∀ c ∈ subs, P c) → P (FSTree.node n subs files)) :
    ∀ t, P t
  | FSTree.node n subs files =>
    h n subs files (fun c hc => FSTree.strongInd h c)
termination_by t => sizeOf t
decreasing_by
  have := List.sizeOf_lt_of_mem hc
  simp only [FSTree.node.sizeOf_spec]
  omega

mutual

/-- Well-formedness of a filesystem snapshot: sibling directories have
pairwise distinct names (as actual directories of one parent do). -/
def FSTree.wf : FSTree → Bool
  | FSTree.node _ subs _ => decide (subs.map FSTree.name).Nodup && FSTree.wfForest subs

/-- Well-formedness of a list of sibling subtrees. -/
def FSTree.wfForest : List FSTree → Bool
  | [] => true
  | c :: cs => FSTree.wf c && FSTree.wfForest cs

end

/-- A WiX `Directory` element created for one walked directory: its relative
path, its display name (the directory's own name), its `Id` attribute, and the
relative path of the directory element it was attached under (`[]` denotes the
top-level install folder `INSTALLFOLDER`). -/
structure DirRec where
  path : List String
  name : String
  dirId : String
  parent : List String
deriving DecidableEq

/-- A WiX `Component`/`File` pair created for one walked file: the relative
path of its containing directory, the file name, and the `File` `Id`
attribute (the component id is `"Comp_" ++ fileId`). -/
structure FileRec where
  dirParts : List String
  filename : String
  fileId : String
deriving DecidableEq

/-- Mutable state of the generator during the walk, mirroring the Python
locals `dir_elements` (key set), the created `Directory` elements, the set
`used_file_ids`, `file_counter`, the created components, `exe_component`,
`component_refs`, and the number of uuid draws taken so far. -/
structure BState where
  dirPaths : List (List String)
  dirs : List DirRec
  usedIds : List String
  counter : Nat
  files : List FileRec
  exe : Option FileRec
  refs : List String
  draws : Nat
deriving DecidableEq

/-- Initial state: `dir_elements = {"": install_folder}`, the shortcut
component's reference already appended, `file_counter = 1`. -/
def initState : BState :=
  { dirPaths := [[]], dirs := [], usedIds := [], counter := 1,
    files := [], exe := none, refs := ["ApplicationShortcut"], draws := 0 }

/-- One candidate file id retried with a counter suffix. -/
def counterId (base : String) (j : Nat) : String :=
  "File_" ++ base ++ "_" ++ Nat.repr j

/-- The `while file_id in used_file_ids` retry loop.  `fuel` bounds the number
of membership tests; the caller passes `used.length + 1`, which suffices
because the candidates are pairwise distinct (see `allocId_spec`). -/
def allocId (base : String) : Nat → String → List String → Nat → String × Nat
  | 0, cand, _, ctr => (cand, ctr)
  | fuel + 1, cand, used, ctr =>
    if cand ∈ used then allocId base fuel (counterId base ctr) used (ctr + 1)
    else (cand, ctr)

/-- The sequence of candidate ids the retry loop tests, in order: used to
reason about `allocId` by pigeonhole. -/
def candList (base : String) : Nat → String → Nat → List String
  | 0, _, _ => []
  | fuel + 1, cand, ctr => cand :: candList base fuel (counterId base ctr) (ctr + 1)

/-- Does a file match the executable test
`filename.lower() == "mview6.exe" and "bin" in rel_path.lower().split(os.path.sep)`?
Lowercasing the joined relative path and splitting it equals lowercasing each
component, since the separator is untouched by `lower()`; for the walk root the
Python code tests `"bin" in [""]`, which is false, matching `[]` here. -/
def isExeMatch (relParts : List String) (filename : String) : Bool :=
  pyLower filename == "mview6.exe" && (relParts.map pyLower).contains "bin"

/-- The body of the `for filename in filenames` loop: allocate a unique file
id, create the component, update `exe_component` on a match, and append the
component reference. -/
def stepFile (tok : Nat → String) (relParts : List String) (st : BState)
    (filename : String) : BState :=
  let stem := splitextStem filename
  let base := sanitize_id stem (tok st.draws)
  let draws2 := if stem = "" then st.draws + 1 else st.draws
  let alloc := allocId base (st.usedIds.length + 1) ("File_" ++ base) st.usedIds st.counter
  let f : FileRec := ⟨relParts, filename, alloc.1⟩
  let exe2 := if isExeMatch relParts filename then some f else st.exe
  { st with usedIds := alloc.1 :: st.usedIds, counter := alloc.2,
            files := st.files ++ [f], exe := exe2,
            refs := st.refs ++ ["Comp_" ++ alloc.1], draws := draws2 }

/-- The whole `for filename in filenames` loop. -/
def processFiles (tok : Nat → String) (relParts : List String)
    (st : BState) (fs : List String) : BState :=
  fs.foldl (stepFile tok relParts) st

/-- The `for i, part in enumerate(path_parts)` loop that makes sure every
prefix of the walked relative path has a `Directory` element.  `totalLen` is
`len(path_parts)` of the walked path, `i` the enumeration index, `cur` the
prefix processed so far.  A missing prefix gets an id from its own name,
suffixed with `_i` when `i > 0 and len(path_parts) > 1`, and is attached under
`dir_elements.get(dirname, install_folder)`. -/
def dirLoopStep (totalLen : Nat) :
    Nat → List String → List (List String) → List DirRec → List String →
    List (List String) × List DirRec
  | _, _, paths, dirs, [] => (paths, dirs)
  | i, cur, paths, dirs, part :: rest =>
    let cur2 := cur ++ [part]
    let next :=
      if cur2 ∈ paths then (paths, dirs)
      else
        let base := sanitize_id ("Dir_" ++ part) ""
        let dId := if 0 < i ∧ 1 < totalLen then base ++ "_" ++ Nat.repr i else base
        let par := if cur ∈ paths then cur else []
        (paths ++ [cur2], dirs ++ [⟨cur2, part, dId, par⟩])
    dirLoopStep totalLen (i + 1) cur2 next.1 next.2 rest

/-- Processing of one `os.walk` item: ensure the directory chain exists, then
process the files of the directory. -/
def processEntry (tok : Nat → String) (st : BState) (e : WalkEntry) : BState :=
  let d := dirLoopStep e.relParts.length 0 [] st.dirPaths st.dirs e.relParts
  processFiles tok e.relParts { st with dirPaths := d.1, dirs := d.2 } e.filenames

/-- The whole `for dirpath, dirnames, filenames in os.walk(root_folder)` loop. -/
def runWalk (tok : Nat → String) (st : BState) (es : List WalkEntry) : BState :=
  es.foldl (processEntry tok) st

/-- State after walking the whole input tree from the initial state. -/
def buildState (tok : Nat → String) (t : FSTree) : BState :=
  runWalk tok initState (walkTree t [])

/-- The static `EXTENSIONS` configuration list of create_wxs.py. -/
def EXTENSIONS : List (String × String) :=
  [("jpg", "image/jpeg"),
   ("jpeg", "image/jpeg"),
   ("png", "image/png"),
   ("gif", "image/gif"),
   ("avif", "image/avif"),
   ("heic", "image/heic"),
   ("webp", "image/webp"),
   ("svg", "image/svg+xml"),
   ("svgz", "image/svg+xml"),
   ("pdf", "application/pdf"),
   ("epub", "application/epub+zip")]

/-- Python `str.lstrip(".")`: drop leading dots. -/
def lstripDot (s : String) : String := ⟨s.data.dropWhile (fun c => c == '.')⟩

/-- One step of building `ext_by_type`: append `ext.lower().lstrip(".")` to
the group of its content type, creating the group on first sight (Python
dicts preserve insertion order). -/
def addExt (acc : List (String × List String)) (p : String × String) :
    List (String × List String) :=
  if acc.any (fun q => q.1 == p.2) then
    acc.map (fun q => if q.1 == p.2 then (q.1, q.2 ++ [lstripDot (pyLower p.1)]) else q)
  else acc ++ [(p.2, [lstripDot (pyLower p.1)])]

/-- The grouping `ext_by_type` of the extension list by content type. -/
def extByType : List (String × List String) := EXTENSIONS.foldl addExt []

/-- A WiX `Extension` element with its nested `Verb` element. -/
structure ExtRec where
  extId : String
  contentType : String
  verbId : String
  verbCommand : String
  verbTargetFile : String
  verbArg : String
deriving DecidableEq

/-- A WiX `ProgId` element (with its extensions) and the registry association
emitted next to it under the executable's component. -/
structure ProgIdRec where
  progId : String
  icon : String
  exts : List ExtRec
  regRoot : String
  regKey : String
  regValue : String
deriving DecidableEq

/-- The `Extension` element emitted for one extension of a content-type
group. -/
def mkExtRec (ct ext : String) : ExtRec :=
  { extId := ext, contentType := ct, verbId := "open_" ++ ext,
    verbCommand := "Open", verbTargetFile := "File_MView6", verbArg := "\"%1\"" }

/-- The `ProgId` group plus registry association emitted for one content-type
group `(content_type, exts)`; Python indexes `exts[0]`, nonempty by
construction. -/
def mkProgId (ct : String) (exts : List String) : ProgIdRec :=
  { progId := "MView6." ++ exts.headD "" ++ "file",
    icon := "File_MView6Icon",
    exts := exts.map (mkExtRec ct),
    regRoot := "HKCR",
    regKey := "MView6." ++ exts.headD "" ++ "file\\shell\\open\\command",
    regValue := "[INSTALLFOLDER]bin\\MView6.exe \"%1\"" }

/-- All `ProgId` groups emitted under the executable's component. -/
def progIdGroups : List ProgIdRec := extByType.map (fun g => mkProgId g.1 g.2)

/-- The Start-Menu `Shortcut` element. -/
structure Shortcut where
  scId : String
  scName : String
  target : String
  workDir : String
deriving DecidableEq

/-- The generated WXS document, restricted to the data the generator computes
(fixed literal attributes of the skeleton are omitted). -/
structure WxsDoc where
  upgradeCode : String
  dirs : List DirRec
  files : List FileRec
  componentRefs : List String
  exe : Option FileRec
  shortcut : Option Shortcut
  shortcutRegistry : Bool
  removeFolder : Bool
  iconFileIncluded : Bool
  progIds : List ProgIdRec
  warning : Bool
deriving DecidableEq

/-- The function `generate_wxs` of create_wxs.py: walk the tree, then attach
shortcut and associations when the executable was found (otherwise print a
warning), and return the document together with `len(component_refs)`.
`upgradeTok` stands for the `str(uuid.uuid4())` drawn for `UpgradeCode`. -/
def generate_wxs (tok : Nat → String) (upgradeTok : String) (t : FSTree) :
    WxsDoc × Nat :=
  let st := buildState tok t
  match st.exe with
  | some e =>
    ({ upgradeCode := upgradeTok, dirs := st.dirs, files := st.files,
       componentRefs := st.refs, exe := some e,
       shortcut := some { scId := "ApplicationStartMenuShortcut", scName := "MView6",
                          target := "[INSTALLFOLDER]bin\\MView6.exe",
                          workDir := "INSTALLFOLDER" },
       shortcutRegistry := true, removeFolder := true, iconFileIncluded := true,
       progIds := progIdGroups, warning := false }, st.refs.length)
  | none =>
    ({ upgradeCode := upgradeTok, dirs := st.dirs, files := st.files,
       componentRefs := st.refs, exe := none,
       shortcut := none, shortcutRegistry := false, removeFolder := false,
       iconFileIncluded := false, progIds := [], warning := true }, st.refs.length)

/-- Outcome of one invocation of the script's `__main__` block. -/
inductive RunResult where
  | usageError
  | invalidRoot
  | success (doc : WxsDoc) (count : Nat)
deriving DecidableEq

/-- The `__main__` block: missing argument or invalid root exit with status 1
before anything is generated; otherwise the document is generated, written,
and the success message reports `len(component_refs)` as a file count. -/
def runMain (tok : Nat → String) (upgradeTok : String) (argsPresent : Bool)
    (rootIsDir : Bool) (t : FSTree) : RunResult :=
  if !argsPresent then RunResult.usageError
  else if !rootIsDir then RunResult.invalidRoot
  else
    let r := generate_wxs tok upgradeTok t
    RunResult.success r.1 r.2

/-- Process exit status of a run. -/
def exitCode : RunResult → Nat
  | RunResult.usageError => 1
  | RunResult.invalidRoot => 1
  | RunResult.success _ _ => 0

/-- Whether the run wrote the output file. -/
def outputWritten : RunResult → Bool
  | RunResult.success _ _ => true
  | _ => false

/-- The count printed by the success message (`with {file_count} files`). -/
def printedCount : RunResult → Option Nat
  | RunResult.success _ n => some n
  | _ => none

/-- The id a directory element receives as a function of its relative path:
its own name sanitized with the `Dir_` marker, suffixed with the positional
depth index when the directory is not a top-level path component. -/
def dirIdOf (p : List String) : String :=
  let base := sanitize_id ("Dir_" ++ p.getLastD "") ""
  if 1 < p.length then base ++ "_" ++ Nat.repr (p.length - 1) else base

/-- The directory element the builder creates for relative path `p`. -/
def mkDirRec (p : List String) : DirRec :=
  { path := p, name := p.getLastD "", dirId := dirIdOf p, parent := p.dropLast }

/-- Modelled from the spec: "that file's installed path (the path of the
matched file under the install folder)" — the WiX-formatted install path of a
walked file, used to compare the emitted shortcut target against the location
where the executable was actually found. -/
def specInstalledPath (f : FileRec) : String :=
  "[INSTALLFOLDER]" ++ String.intercalate "\\" (f.dirParts ++ [f.filename])

/-- Identifier validity as stated by the spec: only ASCII letters, digits and
underscores, and no leading digit. -/
def validIdB (s : String) : Bool :=
  s.data.all isWordChar && !(s.data.headD 'a').isDigit

/-- The multiset of `(directory path, file name)` pairs of the created file
components, in creation order. -/
def pairsOf (st : BState) : List (List String × String) :=
  st.files.map (fun f => (f.dirParts, f.filename))

/-- Total number of files yielded by the walk. -/
def totalFiles (t : FSTree) : Nat :=
  ((walkTree t []).map (fun e => e.filenames.length)).sum

/-- A fixed token stream of word characters, standing for concrete uuid hex
draws in concrete runs. -/
def tok0 : Nat → String := fun _ => "abcdef"

/-- Example input: two branches `a/x` and `b/x` whose inner directories share
a name and a depth. -/
def treeDup : FSTree :=
  FSTree.node "r"
    [FSTree.node "a" [FSTree.node "x" [] []] [],
     FSTree.node "b" [FSTree.node "x" [] []] []] []

/-- Example input: two files matching the executable test, `bin/MView6.exe`
walked first and `zz/bin/mview6.exe` walked last. -/
def treeTwoExe : FSTree :=
  FSTree.node "r"
    [FSTree.node "bin" [] ["MView6.exe"],
     FSTree.node "zz" [FSTree.node "bin" [] ["mview6.exe"]] []] []

/-- Example input: the only matching executable lives at `usr/bin/mview6.exe`,
not at `bin/MView6.exe`. -/
def treeUsrBin : FSTree :=
  FSTree.node "r" [FSTree.node "usr" [FSTree.node "bin" [] ["mview6.exe"]] []] []

/-- Example input: the standard layout `bin/MView6.exe`, `bin/lib.dll`,
`share/icon.png`. -/
def treeStd : FSTree :=
  FSTree.node "r"
    [FSTree.node "bin" [] ["MView6.exe", "lib.dll"],
     FSTree.node "share" [] ["icon.png"]] []

/-- Example input with no executable anywhere. -/
def treeNoExe : FSTree :=
  FSTree.node "r" [FSTree.node "docs" [] ["readme.txt"]] []

/-! ### String facts -/

theorem strExt {s t : String} (h : s.data = t.data) : s = t := congrArg String.mk h

theorem strAppendCancelRight {s t u : String} (h : s ++ u = t ++ u) : s = t := by
  have hd : s.data ++ u.data = t.data ++ u.data := by
    rw [← String.data_append, ← String.data_append, h]
  exact strExt (List.append_cancel_right hd)

theorem strAppendCancelLeft {s t u : String} (h : u ++ s = u ++ t) : s = t := by
  have hd : u.data ++ s.data = u.data ++ t.data := by
    rw [← String.data_append, ← String.data_append, h]
  exact strExt (List.append_cancel_left hd)

/-! ### Decimal representation: `Nat.repr` is injective and digit-only -/

theorem charVal_digitChar : ∀ k, k < 10 → charVal (Nat.digitChar k) = k := by decide

theorem digitChar_isDigit : ∀ k, k < 10 → (Nat.digitChar k).isDigit = true := by decide

theorem toDigitsCore_eq_decDigits :
    ∀ fuel n ds, n < fuel → Nat.toDigitsCore 10 fuel n ds = decDigits n ++ ds := by
  intro fuel
  induction fuel with
  | zero => intro n ds h; omega
  | succ f ih =>
    intro n ds h
    unfold Nat.toDigitsCore
    by_cases h0 : n / 10 = 0
    · have hlt : n < 10 := by omega
      rw [decDigits]
      simp [h0, hlt, Nat.mod_eq_of_lt hlt]
    · have h10 : 10 ≤ n := by omega
      have hlt : ¬ n < 10 := by omega
      rw [if_neg h0, ih (n / 10) _ (by omega)]
      conv_rhs => rw [decDigits]
      simp [hlt, List.append_assoc]

theorem repr_eq_decDigits (n : Nat) : Nat.repr n = (decDigits n).asString := by
  show (Nat.toDigits 10 n).asString = (decDigits n).asString
  unfold Nat.toDigits
  rw [toDigitsCore_eq_decDigits (n + 1) n [] (by omega)]
  simp

theorem decValAux_decDigits (n : Nat) : decValAux (decDigits n) = n := by
  induction n using Nat.strong_induction_on with
  | _ n ih =>
    rw [decDigits]
    by_cases h : n < 10
    · simp only [h, dite_true]
      simp [decValAux, charVal_digitChar n h]
    · simp only [h, dite_false]
      have hmod : n % 10 < 10 := Nat.mod_lt _ (by norm_num)
      have hdiv : n / 10 < n := Nat.div_lt_self (by omega) (by norm_num)
      unfold decValAux
      rw [List.foldl_append]
      have := ih (n / 10) hdiv
      unfold decValAux at this
      rw [this]
      simp [charVal_digitChar _ hmod]
      omega

theorem asString_inj {a b : List Char} (h : a.asString = b.asString) : a = b := by
  have : (a.asString).data = (b.asString).data := by rw [h]
  exact this

theorem repr_injective {a b : Nat} (h : Nat.repr a = Nat.repr b) : a = b := by
  rw [repr_eq_decDigits, repr_eq_decDigits] at h
  have := asString_inj h
  have ha := decValAux_decDigits a
  have hb := decValAux_decDigits b
  rw [this] at ha
  omega

theorem decDigits_all_digit (n : Nat) : ∀ c ∈ decDigits n, c.isDigit = true := by
  induction n using Nat.strong_induction_on with
  | _ n ih =>
    rw [decDigits]
    by_cases h : n < 10
    · simp only [h, dite_true]
      intro c hc
      simp at hc
      subst hc
      exact digitChar_isDigit n h
    · simp only [h, dite_false]
      intro c hc
      rw [List.mem_append] at hc
      rcases hc with hc | hc
      · exact ih (n / 10) (Nat.div_lt_self (by omega) (by norm_num)) c hc
      · simp at hc
        subst hc
        exact digitChar_isDigit _ (Nat.mod_lt _ (by norm_num))

theorem repr_data_all_digit (n : Nat) : ∀ c ∈ (Nat.repr n).data, c.isDigit = true := by
  rw [repr_eq_decDigits]
  exact decDigits_all_digit n

/-! ### Prefix order on path component lists -/

theorem listPre_refl (a : List String) : listPre a a := by
  simp [listPre]

theorem listPre_nil (a : List String) : listPre [] a := by
  simp [listPre]

theorem listPre_append (a s : List String) : listPre a (a ++ s) := by
  simp [listPre, List.take_append_eq_append_take]

theorem listPre_length {a b : List String} (h : listPre a b) : a.length ≤ b.length := by
  unfold listPre at h
  have := congrArg List.length h
  simp at this
  omega

theorem listPre_eq_of_length {a b : List String} (h : listPre a b)
    (hl : b.length ≤ a.length) : a = b := by
  unfold listPre at h
  rw [← h, List.take_of_length_le hl]

theorem listPre_of_nil {a : List String} (h : listPre a []) : a = [] := by
  have := listPre_length h
  simp at this
  exact this

theorem listPre_trans {a b c : List String} (h1 : listPre a b) (h2 : listPre b c) :
    listPre a c := by
  unfold listPre at *
  have hab := listPre_length (a := a) (b := b) h1
  conv at h1 => rw [← h2]
  rw [List.take_take] at h1
  rw [Nat.min_eq_left hab] at h1
  exact h1

theorem listPre_comparable {a b c : List String} (h1 : listPre a c) (h2 : listPre b c)
    (hl : a.length ≤ b.length) : listPre a b := by
  unfold listPre at *
  rw [← h2, List.take_take, Nat.min_eq_left hl, h1]

theorem listPre_concat_split {q l : List String} {x : String}
    (h : listPre q (l ++ [x])) : q = l ++ [x] ∨ listPre q l := by
  by_cases hl : q.length ≤ l.length
  · right
    unfold listPre at h ⊢
    rw [List.take_append_eq_append_take, Nat.sub_eq_zero_of_le hl] at h
    simpa using h
  · left
    have hlen := listPre_length h
    simp at hlen
    exact listPre_eq_of_length h (by simp; omega)

theorem listPre_proper_length {a b : List String} (h : listPre a b) (hne : a ≠ b) :
    a.length < b.length := by
  have := listPre_length h
  rcases Nat.lt_or_ge a.length b.length with hlt | hge
  · exact hlt
  · exact absurd (listPre_eq_of_length h hge) hne

/-! ### Sanitizer facts -/

theorem isWordChar_of_digit {c : Char} (h : c.isDigit = true) : isWordChar c = true := by
  simp [Char.isDigit] at h
  simp [isWordChar]
  tauto

theorem pySub_all_word (s : String) : ∀ c ∈ (pySub s).data, isWordChar c = true := by
  intro c hc
  unfold pySub at hc
  simp at hc
  obtain ⟨a, _, ha⟩ := hc
  by_cases hw : isWordChar a = true
  · rw [hw] at ha
    simp at ha
    rw [← ha]
    exact hw
  · simp [hw] at ha
    rw [← ha]
    decide

theorem string_ne_empty_of_data {s : String} {c : Char} {l : List Char}
    (h : s.data = c :: l) : s ≠ "" := by
  intro he
  rw [he] at h
  exact absurd h (by simp [String.data])

theorem id_marker_data (s : String) : ("id_" ++ s).data = 'i' :: 'd' :: '_' :: s.data := by
  rw [String.data_append]
  rfl

theorem validIdB_of_parts {s : String} {c : Char} {l : List Char}
    (hd : s.data = c :: l) (hw : ∀ x ∈ s.data, isWordChar x = true)
    (hc : c.isDigit = false) : validIdB s = true := by
  unfold validIdB
  rw [hd]
  simp only [Bool.and_eq_true, List.all_eq_true]
  constructor
  · intro x hx
    exact hw x (by rw [hd]; exact hx)
  · simp [hc]

theorem sanitize_cases (name tok : String) :
    (pySub name = "" ∧ sanitize_id name tok = "id_" ++ tok) ∨
    (∃ c0 rest, (pySub name).data = c0 :: rest ∧ c0.isDigit = true ∧
        sanitize_id name tok = "id_" ++ pySub name) ∨
    (∃ c0 rest, (pySub name).data = c0 :: rest ∧ c0.isDigit = false ∧
        sanitize_id name tok = pySub name) := by
  unfold sanitize_id
  rcases hl : (pySub name).data with _ | ⟨c0, rest⟩
  · left
    have he : pySub name = "" := strExt (by simpa using hl)
    refine ⟨he, ?_⟩
    simp only [hl]
    rw [he]
    simp
  · right
    by_cases hdig : c0.isDigit
    · left
      refine ⟨c0, rest, rfl, hdig, ?_⟩
      simp only [hl, hdig, if_true]
      exact if_neg (string_ne_empty_of_data (l := 'd' :: '_' :: (pySub name).data)
        (id_marker_data _))
    · right
      refine ⟨c0, rest, rfl, by simp [hdig], ?_⟩
      simp only [hl, hdig, if_false]
      exact if_neg (string_ne_empty_of_data hl)

theorem sanitize_all_word (name tok : String)
    (h : ∀ c ∈ tok.data, isWordChar c = true) :
    ∀ c ∈ (sanitize_id name tok).data, isWordChar c = true := by
  have marker : ∀ x ∈ ['i', 'd', '_'], isWordChar x = true := by decide
  rcases sanitize_cases name tok with ⟨_, he⟩ | ⟨c0, rest, _, _, he⟩ | ⟨c0, rest, _, _, he⟩ <;>
    rw [he]
  · intro c hc
    rw [id_marker_data] at hc
    rcases List.mem_cons.mp hc with hc | hc
    · rw [hc]; decide
    rcases List.mem_cons.mp hc with hc | hc
    · rw [hc]; decide
    rcases List.mem_cons.mp hc with hc | hc
    · rw [hc]; decide
    · exact h c hc
  · intro c hc
    rw [id_marker_data] at hc
    rcases List.mem_cons.mp hc with hc | hc
    · rw [hc]; decide
    rcases List.mem_cons.mp hc with hc | hc
    · rw [hc]; decide
    rcases List.mem_cons.mp hc with hc | hc
    · rw [hc]; decide
    · exact pySub_all_word name c hc
  · exact pySub_all_word name

theorem sanitize_validId (name tok : String)
    (h : ∀ c ∈ tok.data, isWordChar c = true) :
    validIdB (sanitize_id name tok) = true := by
  have hw := sanitize_all_word name tok h
  rcases sanitize_cases name tok with ⟨_, he⟩ | ⟨c0, rest, hl, _, he⟩ |
      ⟨c0, rest, hl, hdig, he⟩ <;> rw [he] at hw ⊢
  · exact validIdB_of_parts (id_marker_data _) hw (by decide)
  · exact validIdB_of_parts (id_marker_data _) hw (by decide)
  · exact validIdB_of_parts hl hw hdig

theorem sanitize_ne_empty (name tok : String) : (sanitize_id name tok).data ≠ [] := by
  rcases sanitize_cases name tok with ⟨_, he⟩ | ⟨c0, rest, hl, _, he⟩ |
      ⟨c0, rest, hl, _, he⟩ <;> rw [he]
  · rw [id_marker_data]; simp
  · rw [id_marker_data]; simp
  · rw [hl]; simp

/-! ### Allocation loop: freshness and shape -/

theorem counterId_injective {base : String} {j k : Nat}
    (h : counterId base j = counterId base k) : j = k := by
  unfold counterId at h
  have := strAppendCancelLeft h
  have := repr_injective this
  exact this

theorem baseId_ne_counterId (base : String) (j : Nat) :
    "File_" ++ base ≠ counterId base j := by
  intro h
  unfold counterId at h
  have hd := congrArg String.data h
  simp only [String.data_append] at hd
  have := congrArg List.length hd
  simp only [List.length_append] at this
  have hr : 0 < (Nat.repr j).data.length := by
    rw [repr_eq_decDigits]
    show 0 < (decDigits j).length
    rw [decDigits]
    by_cases hj : j < 10
    · simp [hj]
    · simp [hj]
  omega

theorem allocId_shape (base : String) (used : List String) :
    ∀ fuel cand ctr, (allocId base fuel cand used ctr).1 = cand ∨
      ∃ j, (allocId base fuel cand used ctr).1 = counterId base j := by
  intro fuel
  induction fuel with
  | zero => intro cand ctr; left; rfl
  | succ f ih =>
    intro cand ctr
    unfold allocId
    by_cases hm : cand ∈ used
    · rw [if_pos hm]
      rcases ih (counterId base ctr) (ctr + 1) with h | ⟨j, hj⟩
      · right; exact ⟨ctr, h⟩
      · right; exact ⟨j, hj⟩
    · rw [if_neg hm]; left; rfl

theorem allocId_fresh (base : String) (used : List String) :
    ∀ fuel cand ctr,
      (candList base fuel cand ctr).countP (fun u => decide (u ∈ used)) < fuel →
      (allocId base fuel cand used ctr).1 ∉ used := by
  intro fuel
  induction fuel with
  | zero => intro cand ctr h; simp [candList] at h
  | succ f ih =>
    intro cand ctr h
    unfold allocId
    by_cases hm : cand ∈ used
    · rw [if_pos hm]
      apply ih
      rw [candList] at h
      rw [List.countP_cons] at h
      simp [hm] at h
      omega
    · rw [if_neg hm]
      exact hm

theorem candList_elem (base : String) :
    ∀ fuel cand ctr x, x ∈ candList base fuel cand ctr →
      x = cand ∨ ∃ j, ctr ≤ j ∧ x = counterId base j := by
  intro fuel
  induction fuel with
  | zero => intro cand ctr x hx; simp [candList] at hx
  | succ f ih =>
    intro cand ctr x hx
    rw [candList] at hx
    rcases List.mem_cons.mp hx with hx | hx
    · left; exact hx
    · rcases ih (counterId base ctr) (ctr + 1) x hx with hx | ⟨j, hj, hxe⟩
      · right; exact ⟨ctr, Nat.le_refl _, hx⟩
      · right; exact ⟨j, by omega, hxe⟩

theorem candList_nodup (base : String) :
    ∀ fuel cand ctr, (∀ j, ctr ≤ j → cand ≠ counterId base j) →
      (candList base fuel cand ctr).Nodup := by
  intro fuel
  induction fuel with
  | zero => intro cand ctr _; simp [candList]
  | succ f ih =>
    intro cand ctr h
    rw [candList]
    refine List.nodup_cons.mpr ⟨?_, ?_⟩
    · intro hmem
      rcases candList_elem base f (counterId base ctr) (ctr + 1) cand hmem with hx | ⟨j, hj, hxe⟩
      · exact h ctr (Nat.le_refl _) hx
      · exact h j (by omega) hxe
    · apply ih
      intro j hj he
      have := counterId_injective he
      omega

theorem allocId_result_fresh (base : String) (used : List String) (ctr : Nat) :
    (allocId base (used.length + 1) ("File_" ++ base) used ctr).1 ∉ used := by
  apply allocId_fresh
  have hnodup : (candList base (used.length + 1) ("File_" ++ base) ctr).Nodup :=
    candList_nodup base _ _ _ (fun j _ => baseId_ne_counterId base j)
  rw [List.countP_eq_length_filter]
  have hsub : (candList base (used.length + 1) ("File_" ++ base) ctr).filter
      (fun u => decide (u ∈ used)) ⊆ used := by
    intro x hx
    have := List.of_mem_filter hx
    simpa using this
  have hle := ((hnodup.filter _).subperm hsub).length_le
  omega

/-! ### File-loop invariants -/

theorem fileId_data (b : String) :
    ("File_" ++ b).data = 'F' :: 'i' :: 'l' :: 'e' :: '_' :: b.data := by
  rw [String.data_append]
  rfl

theorem validIdB_fileBase {b : String} (hb : ∀ c ∈ b.data, isWordChar c = true) :
    validIdB ("File_" ++ b) = true := by
  refine validIdB_of_parts (fileId_data b) ?_ (by decide)
  intro x hx
  rw [fileId_data] at hx
  rcases List.mem_cons.mp hx with hx | hx
  · rw [hx]; decide
  rcases List.mem_cons.mp hx with hx | hx
  · rw [hx]; decide
  rcases List.mem_cons.mp hx with hx | hx
  · rw [hx]; decide
  rcases List.mem_cons.mp hx with hx | hx
  · rw [hx]; decide
  rcases List.mem_cons.mp hx with hx | hx
  · rw [hx]; decide
  · exact hb x hx

theorem counterId_data (b : String) (j : Nat) :
    (counterId b j).data =
      'F' :: 'i' :: 'l' :: 'e' :: '_' :: (b.data ++ '_' :: (Nat.repr j).data) := by
  unfold counterId
  rw [String.data_append, String.data_append, String.data_append]
  have h1 : "File_".data = ['F', 'i', 'l', 'e', '_'] := rfl
  have h2 : "_".data = ['_'] := rfl
  rw [h1, h2]
  simp

theorem validIdB_counterId {b : String} (hb : ∀ c ∈ b.data, isWordChar c = true)
    (j : Nat) : validIdB (counterId b j) = true := by
  refine validIdB_of_parts (counterId_data b j) ?_ (by decide)
  intro x hx
  rw [counterId_data] at hx
  rcases List.mem_cons.mp hx with hx | hx
  · rw [hx]; decide
  rcases List.mem_cons.mp hx with hx | hx
  · rw [hx]; decide
  rcases List.mem_cons.mp hx with hx | hx
  · rw [hx]; decide
  rcases List.mem_cons.mp hx with hx | hx
  · rw [hx]; decide
  rcases List.mem_cons.mp hx with hx | hx
  · rw [hx]; decide
  rcases List.mem_append.mp hx with hx | hx
  · exact hb x hx
  rcases List.mem_cons.mp hx with hx | hx
  · rw [hx]; decide
  · exact isWordChar_of_digit (repr_data_all_digit j x hx)

theorem processFiles_dirPaths (tok : Nat → String) (rp : List String) :
    ∀ fs st, (processFiles tok rp st fs).dirPaths = st.dirPaths := by
  intro fs
  induction fs with
  | nil => intro st; rfl
  | cons fn rest ih =>
    intro st
    show (processFiles tok rp (stepFile tok rp st fn) rest).dirPaths = st.dirPaths
    rw [ih]
    rfl

theorem processFiles_dirs (tok : Nat → String) (rp : List String) :
    ∀ fs st, (processFiles tok rp st fs).dirs = st.dirs := by
  intro fs
  induction fs with
  | nil => intro st; rfl
  | cons fn rest ih =>
    intro st
    show (processFiles tok rp (stepFile tok rp st fn) rest).dirs = st.dirs
    rw [ih]
    rfl

theorem processFiles_pairs (tok : Nat → String) (rp : List String) :
    ∀ fs st, pairsOf (processFiles tok rp st fs) =
      pairsOf st ++ fs.map (fun fn => (rp, fn)) := by
  intro fs
  induction fs with
  | nil => intro st; simp [processFiles]
  | cons fn rest ih =>
    intro st
    show pairsOf (processFiles tok rp (stepFile tok rp st fn) rest) = _
    rw [ih]
    have hstep : pairsOf (stepFile tok rp st fn) = pairsOf st ++ [(rp, fn)] := by
      unfold stepFile pairsOf
      simp
    rw [hstep]
    simp

theorem processFiles_refs_len (tok : Nat → String) (rp : List String) :
    ∀ fs st, (processFiles tok rp st fs).refs.length = st.refs.length + fs.length := by
  intro fs
  induction fs with
  | nil => intro st; rfl
  | cons fn rest ih =>
    intro st
    show (processFiles tok rp (stepFile tok rp st fn) rest).refs.length = _
    rw [ih]
    unfold stepFile
    simp
    omega

theorem processFiles_files_len (tok : Nat → String) (rp : List String) :
    ∀ fs st, (processFiles tok rp st fs).files.length = st.files.length + fs.length := by
  intro fs st
  have := processFiles_pairs tok rp fs st
  have h1 : (processFiles tok rp st fs).files.length = (pairsOf (processFiles tok rp st fs)).length := by
    unfold pairsOf
    simp
  have h2 : st.files.length = (pairsOf st).length := by
    unfold pairsOf
    simp
  rw [h1, h2, this]
  simp

theorem processFiles_refs_mem (tok : Nat → String) (rp : List String) :
    ∀ fs st x, x ∈ st.refs → x ∈ (processFiles tok rp st fs).refs := by
  intro fs
  induction fs with
  | nil => intro st x hx; exact hx
  | cons fn rest ih =>
    intro st x hx
    show x ∈ (processFiles tok rp (stepFile tok rp st fn) rest).refs
    apply ih
    unfold stepFile
    simp
    left
    exact hx

theorem processFiles_ids (tok : Nat → String) (rp : List String) :
    ∀ fs st,
      (st.files.map FileRec.fileId).Nodup →
      (∀ i ∈ st.files.map FileRec.fileId, i ∈ st.usedIds) →
      ((processFiles tok rp st fs).files.map FileRec.fileId).Nodup ∧
        ∀ i ∈ (processFiles tok rp st fs).files.map FileRec.fileId,
          i ∈ (processFiles tok rp st fs).usedIds := by
  intro fs
  induction fs with
  | nil => intro st h1 h2; exact ⟨h1, h2⟩
  | cons fn rest ih =>
    intro st h1 h2
    show ((processFiles tok rp (stepFile tok rp st fn) rest).files.map FileRec.fileId).Nodup ∧ _
    have hfresh :
        (allocId (sanitize_id (splitextStem fn) (tok st.draws)) (st.usedIds.length + 1)
          ("File_" ++ sanitize_id (splitextStem fn) (tok st.draws)) st.usedIds st.counter).1
          ∉ st.usedIds :=
      allocId_result_fresh _ _ _
    apply ih
    · unfold stepFile
      simp only [List.map_append, List.map_cons, List.map_nil]
      rw [List.nodup_append]
      refine ⟨h1, by simp, ?_⟩
      intro i hi
      simp only [List.mem_singleton]
      intro he
      rw [← he] at hfresh
      exact hfresh (h2 i hi)
    · unfold stepFile
      simp only [List.map_append, List.map_cons, List.map_nil]
      intro i hi
      rcases List.mem_append.mp hi with hi | hi
      · exact List.mem_cons_of_mem _ (h2 i hi)
      · simp at hi
        rw [hi]
        exact List.mem_cons_self _ _

theorem processFiles_exe (tok : Nat → String) (rp : List String) :
    ∀ fs st,
      st.exe = (st.files.filter (fun f => isExeMatch f.dirParts f.filename)).getLast? →
      (processFiles tok rp st fs).exe =
        ((processFiles tok rp st fs).files.filter
          (fun f => isExeMatch f.dirParts f.filename)).getLast? := by
  intro fs
  induction fs with
  | nil => intro st h; exact h
  | cons fn rest ih =>
    intro st h
    show (processFiles tok rp (stepFile tok rp st fn) rest).exe = _
    apply ih
    unfold stepFile
    simp only [List.filter_append]
    by_cases hm : isExeMatch rp fn
    · simp [hm, List.getLast?_concat]
    · simpa [hm] using h

theorem processFiles_valid (tok : Nat → String) (rp : List String)
    (htok : ∀ n, ∀ c ∈ (tok n).data, isWordChar c = true) :
    ∀ fs st,
      (∀ f ∈ st.files, validIdB f.fileId = true) →
      ∀ f ∈ (processFiles tok rp st fs).files, validIdB f.fileId = true := by
  intro fs
  induction fs with
  | nil => intro st h; exact h
  | cons fn rest ih =>
    intro st h
    show ∀ f ∈ (processFiles tok rp (stepFile tok rp st fn) rest).files, _
    apply ih
    unfold stepFile
    simp only []
    intro f hf
    rcases List.mem_append.mp hf with hf | hf
    · exact h f hf
    · simp at hf
      rw [hf]
      have hbase : ∀ c ∈ (sanitize_id (splitextStem fn) (tok st.draws)).data,
          isWordChar c = true :=
        sanitize_all_word _ _ (htok st.draws)
      rcases allocId_shape (sanitize_id (splitextStem fn) (tok st.draws)) st.usedIds
          (st.usedIds.length + 1)
          ("File_" ++ sanitize_id (splitextStem fn) (tok st.draws)) st.counter with hs | ⟨j, hs⟩
      · rw [hs]
        exact validIdB_fileBase hbase
      · rw [hs]
        exact validIdB_counterId hbase j

theorem processFiles_shape (tok : Nat → String) (rp : List String) :
    ∀ fs st,
      (∀ f ∈ st.files, ∃ j,
        f.fileId = "File_" ++ sanitize_id (splitextStem f.filename) (tok j) ∨
        ∃ k, f.fileId = counterId (sanitize_id (splitextStem f.filename) (tok j)) k) →
      ∀ f ∈ (processFiles tok rp st fs).files, ∃ j,
        f.fileId = "File_" ++ sanitize_id (splitextStem f.filename) (tok j) ∨
        ∃ k, f.fileId = counterId (sanitize_id (splitextStem f.filename) (tok j)) k := by
  intro fs
  induction fs with
  | nil => intro st h; exact h
  | cons fn rest ih =>
    intro st h
    show ∀ f ∈ (processFiles tok rp (stepFile tok rp st fn) rest).files, _
    apply ih
    unfold stepFile
    simp only []
    intro f hf
    rcases List.mem_append.mp hf with hf | hf
    · exact h f hf
    · simp at hf
      rw [hf]
      refine ⟨st.draws, ?_⟩
      rcases allocId_shape (sanitize_id (splitextStem fn) (tok st.draws)) st.usedIds
          (st.usedIds.length + 1)
          ("File_" ++ sanitize_id (splitextStem fn) (tok st.draws)) st.counter with hs | ⟨j, hs⟩
      · left; exact hs
      · right; exact ⟨j, hs⟩

/-! ### Directory loop -/

theorem getLastD_concat (l : List String) (a : String) (d : String) :
    (l ++ [a]).getLastD d = a := by
  simp [List.getLastD_eq_getLast?, List.getLast?_concat]

theorem dirLoop_spec (ps : List String) :
    ∀ rest cur paths dirs, cur ++ rest = ps → rest ≠ [] →
      ps ∉ paths → (∀ q, listPre q ps → q ≠ ps → q ∈ paths) →
      dirLoopStep ps.length cur.length cur paths dirs rest =
        (paths ++ [ps], dirs ++ [mkDirRec ps]) := by
  intro rest
  induction rest with
  | nil => intro cur paths dirs _ hne; exact absurd rfl hne
  | cons part rest2 ih =>
    intro cur paths dirs heq _ hnotin hanc
    rw [dirLoopStep]
    cases rest2 with
    | nil =>
      have hps : cur ++ [part] = ps := by simpa using heq
      rw [if_neg (by rw [hps]; exact hnotin)]
      have hcurmem : cur ∈ paths := by
        apply hanc
        · rw [← hps]; exact listPre_append cur [part]
        · intro hc
          have := congrArg List.length hc
          rw [← hps] at this
          simp at this
      rw [if_pos hcurmem, dirLoopStep]
      have hname : part = ps.getLastD "" := by rw [← hps, getLastD_concat]
      have hlen : ps.length = cur.length + 1 := by rw [← hps]; simp
      have hdrop : ps.dropLast = cur := by rw [← hps, List.dropLast_concat]
      have hid : (if 0 < cur.length ∧ 1 < ps.length then
          sanitize_id ("Dir_" ++ part) "" ++ "_" ++ Nat.repr cur.length
        else sanitize_id ("Dir_" ++ part) "") = dirIdOf ps := by
        unfold dirIdOf
        rw [← hname, hlen]
        by_cases hc : 0 < cur.length
        · rw [if_pos ⟨hc, by omega⟩, if_pos (by omega)]
          simp
        · rw [if_neg (by omega), if_neg (by omega)]
      simp only [mkDirRec, Prod.mk.injEq]
      rw [hps, hid, ← hname, hdrop]
      exact ⟨rfl, rfl⟩
    | cons p2 r2 =>
      have hpre : listPre (cur ++ [part]) ps := by
        rw [← heq]
        have hsplit : cur ++ part :: p2 :: r2 = (cur ++ [part]) ++ (p2 :: r2) := by simp
        rw [hsplit]
        exact listPre_append (cur ++ [part]) (p2 :: r2)
      have hne2 : cur ++ [part] ≠ ps := by
        intro hc
        have h1 := congrArg List.length heq
        have h2 := congrArg List.length hc
        simp at h1 h2
        omega
      rw [if_pos (hanc _ hpre hne2)]
      have := ih (cur ++ [part]) paths dirs (by simpa using heq) (by simp) hnotin hanc
      simpa using this

theorem validIdB_parts_of {s : String} {c : Char} {l : List Char}
    (hv : validIdB s = true) (hd : s.data = c :: l) :
    (∀ x ∈ s.data, isWordChar x = true) ∧ c.isDigit = false := by
  unfold validIdB at hv
  rw [hd] at hv
  simp only [Bool.and_eq_true, List.all_eq_true] at hv
  constructor
  · intro x hx
    rw [hd] at hx
    exact hv.1 x hx
  · have := hv.2
    simp at this
    exact this

theorem validIdB_append_suffix {s : String} (hv : validIdB s = true)
    (hne : s.data ≠ []) {t : String} (ht : ∀ c ∈ t.data, isWordChar c = true) :
    validIdB (s ++ t) = true := by
  cases hd : s.data with
  | nil => exact absurd hd hne
  | cons c l =>
    obtain ⟨hw, hc⟩ := validIdB_parts_of hv hd
    refine validIdB_of_parts (c := c) (l := l ++ t.data) ?_ ?_ hc
    · rw [String.data_append, hd]; simp
    · intro x hx
      rw [String.data_append] at hx
      rcases List.mem_append.mp hx with hx | hx
      · exact hw x hx
      · exact ht x hx

theorem dirId_valid (part : String) (i : Nat) :
    validIdB (sanitize_id ("Dir_" ++ part) "") = true ∧
      validIdB (sanitize_id ("Dir_" ++ part) "" ++ "_" ++ Nat.repr i) = true := by
  have htok : ∀ c ∈ ("" : String).data, isWordChar c = true := by
    intro c hc
    simp [String.data] at hc
  have h1 := sanitize_validId ("Dir_" ++ part) "" htok
  refine ⟨h1, ?_⟩
  have h2 : validIdB (sanitize_id ("Dir_" ++ part) "" ++ "_") = true := by
    refine validIdB_append_suffix h1 (sanitize_ne_empty _ _) ?_
    intro c hc
    have : ("_" : String).data = ['_'] := rfl
    rw [this] at hc
    simp at hc
    rw [hc]
    decide
  refine validIdB_append_suffix h2 ?_ ?_
  · rw [String.data_append]
    simp
  · intro c hc
    exact isWordChar_of_digit (repr_data_all_digit i c hc)

theorem dirLoop_valid (totalLen : Nat) :
    ∀ rest i cur paths dirs,
      (∀ d ∈ dirs, validIdB d.dirId = true) →
      ∀ d ∈ (dirLoopStep totalLen i cur paths dirs rest).2, validIdB d.dirId = true := by
  intro rest
  induction rest with
  | nil => intro i cur paths dirs h; exact h
  | cons part rest2 ih =>
    intro i cur paths dirs h
    rw [dirLoopStep]
    by_cases hm : cur ++ [part] ∈ paths
    · rw [if_pos hm]
      exact ih _ _ _ _ h
    · rw [if_neg hm]
      apply ih
      intro d hd
      rcases List.mem_append.mp hd with hd | hd
      · exact h d hd
      · simp at hd
        rw [hd]
        by_cases hcond : 0 < i ∧ 1 < totalLen
        · simp only [hcond, if_true]
          exact (dirId_valid part i).2
        · simp only [hcond, if_false]
          exact (dirId_valid part i).1

/-! ### Per-entry and whole-walk invariants -/

theorem processEntry_eq (tok : Nat → String) (st : BState) (e : WalkEntry) :
    processEntry tok st e =
      processFiles tok e.relParts
        { st with dirPaths := (dirLoopStep e.relParts.length 0 [] st.dirPaths st.dirs e.relParts).1,
                  dirs := (dirLoopStep e.relParts.length 0 [] st.dirPaths st.dirs e.relParts).2 }
        e.filenames := rfl

theorem runWalk_ids (tok : Nat → String) (es : List WalkEntry) :
    ∀ st,
      (st.files.map FileRec.fileId).Nodup →
      (∀ i ∈ st.files.map FileRec.fileId, i ∈ st.usedIds) →
      ((runWalk tok st es).files.map FileRec.fileId).Nodup ∧
        ∀ i ∈ (runWalk tok st es).files.map FileRec.fileId, i ∈ (runWalk tok st es).usedIds := by
  induction es with
  | nil => intro st h1 h2; exact ⟨h1, h2⟩
  | cons e rest ih =>
    intro st h1 h2
    show ((runWalk tok (processEntry tok st e) rest).files.map FileRec.fileId).Nodup ∧ _
    rw [processEntry_eq]
    obtain ⟨g1, g2⟩ := processFiles_ids tok e.relParts e.filenames
      { st with dirPaths := (dirLoopStep e.relParts.length 0 [] st.dirPaths st.dirs e.relParts).1,
                dirs := (dirLoopStep e.relParts.length 0 [] st.dirPaths st.dirs e.relParts).2 } h1 h2
    exact ih _ g1 g2

theorem runWalk_exe (tok : Nat → String) (es : List WalkEntry) :
    ∀ st,
      st.exe = (st.files.filter (fun f => isExeMatch f.dirParts f.filename)).getLast? →
      (runWalk tok st es).exe =
        ((runWalk tok st es).files.filter
          (fun f => isExeMatch f.dirParts f.filename)).getLast? := by
  induction es with
  | nil => intro st h; exact h
  | cons e rest ih =>
    intro st h
    show (runWalk tok (processEntry tok st e) rest).exe = _
    rw [processEntry_eq]
    exact ih _ (processFiles_exe tok e.relParts e.filenames _ h)

theorem runWalk_valid (tok : Nat → String)
    (htok : ∀ n, ∀ c ∈ (tok n).data, isWordChar c = true) (es : List WalkEntry) :
    ∀ st,
      (∀ f ∈ st.files, validIdB f.fileId = true) →
      (∀ d ∈ st.dirs, validIdB d.dirId = true) →
      (∀ f ∈ (runWalk tok st es).files, validIdB f.fileId = true) ∧
        ∀ d ∈ (runWalk tok st es).dirs, validIdB d.dirId = true := by
  induction es with
  | nil => intro st h1 h2; exact ⟨h1, h2⟩
  | cons e rest ih =>
    intro st h1 h2
    show (∀ f ∈ (runWalk tok (processEntry tok st e) rest).files, _) ∧ _
    rw [processEntry_eq]
    apply ih
    · exact processFiles_valid tok e.relParts htok e.filenames _ h1
    · rw [processFiles_dirs]
      exact dirLoop_valid e.relParts.length e.relParts 0 [] st.dirPaths st.dirs h2

theorem runWalk_shape (tok : Nat → String) (es : List WalkEntry) :
    ∀ st,
      (∀ f ∈ st.files, ∃ j,
        f.fileId = "File_" ++ sanitize_id (splitextStem f.filename) (tok j) ∨
        ∃ k, f.fileId = counterId (sanitize_id (splitextStem f.filename) (tok j)) k) →
      ∀ f ∈ (runWalk tok st es).files, ∃ j,
        f.fileId = "File_" ++ sanitize_id (splitextStem f.filename) (tok j) ∨
        ∃ k, f.fileId = counterId (sanitize_id (splitextStem f.filename) (tok j)) k := by
  induction es with
  | nil => intro st h; exact h
  | cons e rest ih =>
    intro st h
    show ∀ f ∈ (runWalk tok (processEntry tok st e) rest).files, _
    rw [processEntry_eq]
    exact ih _ (processFiles_shape tok e.relParts e.filenames _ h)

theorem runWalk_pairs (tok : Nat → String) (es : List WalkEntry) :
    ∀ st, pairsOf (runWalk tok st es) =
      pairsOf st ++ es.flatMap (fun e => e.filenames.map (fun fn => (e.relParts, fn))) := by
  induction es with
  | nil => intro st; simp [runWalk]
  | cons e rest ih =>
    intro st
    show pairsOf (runWalk tok (processEntry tok st e) rest) = _
    rw [ih, processEntry_eq, processFiles_pairs]
    have : pairsOf { st with
        dirPaths := (dirLoopStep e.relParts.length 0 [] st.dirPaths st.dirs e.relParts).1,
        dirs := (dirLoopStep e.relParts.length 0 [] st.dirPaths st.dirs e.relParts).2 } =
        pairsOf st := rfl
    rw [this]
    simp

theorem runWalk_refs_len (tok : Nat → String) (es : List WalkEntry) :
    ∀ st, (runWalk tok st es).refs.length =
      st.refs.length + (es.map (fun e => e.filenames.length)).sum := by
  induction es with
  | nil => intro st; simp [runWalk]
  | cons e rest ih =>
    intro st
    show (runWalk tok (processEntry tok st e) rest).refs.length = _
    rw [ih, processEntry_eq, processFiles_refs_len]
    simp
    omega

theorem runWalk_refs_mem (tok : Nat → String) (es : List WalkEntry) :
    ∀ st x, x ∈ st.refs → x ∈ (runWalk tok st es).refs := by
  induction es with
  | nil => intro st x hx; exact hx
  | cons e rest ih =>
    intro st x hx
    show x ∈ (runWalk tok (processEntry tok st e) rest).refs
    apply ih
    rw [processEntry_eq]
    exact processFiles_refs_mem tok e.relParts e.filenames _ x hx

/-! ### Walk-order facts -/

theorem walkTree_node (n : String) (subs : List FSTree) (files : List String)
    (pre : List String) :
    walkTree (FSTree.node n subs files) pre = ⟨pre, files⟩ :: walkForest subs pre := by
  rw [walkTree]

theorem walkForest_cons (c : FSTree) (cs : List FSTree) (pre : List String) :
    walkForest (c :: cs) pre = walkTree c (pre ++ [c.name]) ++ walkForest cs pre := by
  rw [walkForest]

theorem walkForest_extends_aux :
    ∀ (subs : List FSTree) (pre : List String),
      (∀ c ∈ subs, ∀ pre2 e, e ∈ walkTree c pre2 → listPre pre2 e.relParts) →
      ∀ e ∈ walkForest subs pre, listPre pre e.relParts := by
  intro subs
  induction subs with
  | nil =>
    intro pre _ e he
    rw [walkForest] at he
    simp at he
  | cons c cs ih =>
    intro pre h e he
    rw [walkForest_cons] at he
    rcases List.mem_append.mp he with he | he
    · exact listPre_trans (listPre_append pre [c.name])
        (h c (List.mem_cons_self c cs) (pre ++ [c.name]) e he)
    · exact ih pre (fun c2 hc2 => h c2 (List.mem_cons_of_mem c hc2)) e he

theorem walk_extends : ∀ t pre, ∀ e ∈ walkTree t pre, listPre pre e.relParts := by
  have main : ∀ t, ∀ pre e, e ∈ walkTree t pre → listPre pre e.relParts := by
    apply FSTree.strongInd
      (P := fun t => ∀ pre e, e ∈ walkTree t pre → listPre pre e.relParts)
    intro n subs files ihsubs pre e he
    rw [walkTree_node] at he
    rcases List.mem_cons.mp he with he | he
    · rw [he]
      exact listPre_refl pre
    · exact walkForest_extends_aux subs pre ihsubs e he
  exact main

theorem walkForest_mem :
    ∀ (subs : List FSTree) (pre : List String) (e : WalkEntry),
      e ∈ walkForest subs pre → ∃ c ∈ subs, e ∈ walkTree c (pre ++ [c.name]) := by
  intro subs
  induction subs with
  | nil =>
    intro pre e he
    rw [walkForest] at he
    simp at he
  | cons c cs ih =>
    intro pre e he
    rw [walkForest_cons] at he
    rcases List.mem_append.mp he with he | he
    · exact ⟨c, List.mem_cons_self c cs, he⟩
    · obtain ⟨c2, hc2, he2⟩ := ih pre e he
      exact ⟨c2, List.mem_cons_of_mem c hc2, he2⟩

/-! ### The directory-structure theorem for one subtree and a forest -/

theorem runWalk_cons (tok : Nat → String) (st : BState) (e : WalkEntry)
    (es : List WalkEntry) :
    runWalk tok st (e :: es) = runWalk tok (processEntry tok st e) es := rfl

theorem runWalk_append (tok : Nat → String) (st : BState) (l1 l2 : List WalkEntry) :
    runWalk tok st (l1 ++ l2) = runWalk tok (runWalk tok st l1) l2 := by
  unfold runWalk
  rw [List.foldl_append]

theorem forestRun (tok : Nat → String) :
    ∀ (subs : List FSTree) (pre0 : List String),
      (∀ c ∈ subs, ∀ pre st, FSTree.wf c = true → pre ≠ [] →
        (∀ q, listPre q pre → q ≠ pre → q ∈ st.dirPaths) →
        (∀ q ∈ st.dirPaths, ¬ listPre pre q) →
        (runWalk tok st (walkTree c pre)).dirPaths
            = st.dirPaths ++ (walkTree c pre).map WalkEntry.relParts ∧
          (runWalk tok st (walkTree c pre)).dirs
            = st.dirs ++ ((walkTree c pre).map WalkEntry.relParts).map mkDirRec) →
      FSTree.wfForest subs = true →
      (subs.map FSTree.name).Nodup →
      ∀ st,
        (∀ q, listPre q pre0 → q ∈ st.dirPaths) →
        (∀ q ∈ st.dirPaths, ∀ c ∈ subs, ¬ listPre (pre0 ++ [c.name]) q) →
        (runWalk tok st (walkForest subs pre0)).dirPaths
            = st.dirPaths ++ (walkForest subs pre0).map WalkEntry.relParts ∧
          (runWalk tok st (walkForest subs pre0)).dirs
            = st.dirs ++ ((walkForest subs pre0).map WalkEntry.relParts).map mkDirRec := by
  intro subs
  induction subs with
  | nil =>
    intro pre0 _ _ _ st _ _
    rw [walkForest]
    simp [runWalk]
  | cons c cs ih =>
    intro pre0 htree hwfF hnodup st hB1 hB2
    have hwfc : FSTree.wf c = true ∧ FSTree.wfForest cs = true := by
      rw [FSTree.wfForest] at hwfF
      simpa using hwfF
    have hnames : c.name ∉ cs.map FSTree.name ∧ (cs.map FSTree.name).Nodup := by
      simpa using hnodup
    rw [walkForest_cons, runWalk_append]
    -- the head subtree
    have hA1 : ∀ q, listPre q (pre0 ++ [c.name]) → q ≠ pre0 ++ [c.name] → q ∈ st.dirPaths := by
      intro q hq hne
      rcases listPre_concat_split hq with hq | hq
      · exact absurd hq hne
      · exact hB1 q hq
    have hA2 : ∀ q ∈ st.dirPaths, ¬ listPre (pre0 ++ [c.name]) q := by
      intro q hq
      exact hB2 q hq c (List.mem_cons_self c cs)
    obtain ⟨hp1, hd1⟩ := htree c (List.mem_cons_self c cs) (pre0 ++ [c.name]) st hwfc.1
      (by simp) hA1 hA2
    -- the remaining siblings
    have hB1s : ∀ q, listPre q pre0 → q ∈ (runWalk tok st (walkTree c (pre0 ++ [c.name]))).dirPaths := by
      intro q hq
      rw [hp1]
      exact List.mem_append_left _ (hB1 q hq)
    have hB2s : ∀ q ∈ (runWalk tok st (walkTree c (pre0 ++ [c.name]))).dirPaths,
        ∀ c2 ∈ cs, ¬ listPre (pre0 ++ [c2.name]) q := by
      intro q hq c2 hc2 hcon
      rw [hp1] at hq
      rcases List.mem_append.mp hq with hq | hq
      · exact hB2 q hq c2 (List.mem_cons_of_mem c hc2) hcon
      · simp only [List.mem_map] at hq
        obtain ⟨e, he, hqe⟩ := hq
        have hext : listPre (pre0 ++ [c.name]) q := by
          rw [← hqe]
          exact walk_extends c (pre0 ++ [c.name]) e he
        have hcmp : listPre (pre0 ++ [c2.name]) (pre0 ++ [c.name]) :=
          listPre_comparable hcon hext (by simp)
        have heq2 : pre0 ++ [c2.name] = pre0 ++ [c.name] :=
          listPre_eq_of_length hcmp (by simp)
        have : c2.name = c.name := by
          have := List.append_cancel_left heq2
          simpa using this
        exact hnames.1 (this ▸ List.mem_map_of_mem FSTree.name hc2)
    obtain ⟨hp2, hd2⟩ := ih pre0
      (fun c2 hc2 => htree c2 (List.mem_cons_of_mem c hc2)) hwfc.2 hnames.2
      (runWalk tok st (walkTree c (pre0 ++ [c.name]))) hB1s hB2s
    rw [hp2, hd2, hp1, hd1]
    simp [List.append_assoc]

theorem treeRun (tok : Nat → String) :
    ∀ t pre st, FSTree.wf t = true → pre ≠ [] →
      (∀ q, listPre q pre → q ≠ pre → q ∈ st.dirPaths) →
      (∀ q ∈ st.dirPaths, ¬ listPre pre q) →
      (runWalk tok st (walkTree t pre)).dirPaths
          = st.dirPaths ++ (walkTree t pre).map WalkEntry.relParts ∧
        (runWalk tok st (walkTree t pre)).dirs
          = st.dirs ++ ((walkTree t pre).map WalkEntry.relParts).map mkDirRec := by
  apply FSTree.strongInd
    (P := fun t => ∀ pre st, FSTree.wf t = true → pre ≠ [] →
      (∀ q, listPre q pre → q ≠ pre → q ∈ st.dirPaths) →
      (∀ q ∈ st.dirPaths, ¬ listPre pre q) →
      (runWalk tok st (walkTree t pre)).dirPaths
          = st.dirPaths ++ (walkTree t pre).map WalkEntry.relParts ∧
        (runWalk tok st (walkTree t pre)).dirs
          = st.dirs ++ ((walkTree t pre).map WalkEntry.relParts).map mkDirRec)
  intro n subs files ihsubs pre st hwf hpre hA1 hA2
  have hwfparts : (subs.map FSTree.name).Nodup ∧ FSTree.wfForest subs = true := by
    rw [FSTree.wf] at hwf
    simpa using hwf
  have hnotin : pre ∉ st.dirPaths := fun hmem => hA2 pre hmem (listPre_refl pre)
  have hD := dirLoop_spec pre pre [] st.dirPaths st.dirs (by simp) hpre hnotin hA1
  simp only [List.length_nil] at hD
  rw [walkTree_node, runWalk_cons]
  have hentry :
      (processEntry tok st ⟨pre, files⟩).dirPaths = st.dirPaths ++ [pre] ∧
      (processEntry tok st ⟨pre, files⟩).dirs = st.dirs ++ [mkDirRec pre] := by
    rw [processEntry_eq]
    constructor
    · rw [processFiles_dirPaths]
      show (dirLoopStep pre.length 0 [] st.dirPaths st.dirs pre).1 = _
      rw [hD]
    · rw [processFiles_dirs]
      show (dirLoopStep pre.length 0 [] st.dirPaths st.dirs pre).2 = _
      rw [hD]
  have hB1 : ∀ q, listPre q pre → q ∈ (processEntry tok st ⟨pre, files⟩).dirPaths := by
    intro q hq
    rw [hentry.1]
    by_cases hqe : q = pre
    · rw [hqe]
      exact List.mem_append_right _ (by simp)
    · exact List.mem_append_left _ (hA1 q hq hqe)
  have hB2 : ∀ q ∈ (processEntry tok st ⟨pre, files⟩).dirPaths,
      ∀ c ∈ subs, ¬ listPre (pre ++ [c.name]) q := by
    intro q hq c _ hcon
    rw [hentry.1] at hq
    rcases List.mem_append.mp hq with hq | hq
    · exact hA2 q hq (listPre_trans (listPre_append pre [c.name]) hcon)
    · simp at hq
      rw [hq] at hcon
      have := listPre_length hcon
      simp at this
  obtain ⟨hp, hd⟩ := forestRun tok subs pre ihsubs hwfparts.2 hwfparts.1
    (processEntry tok st ⟨pre, files⟩) hB1 hB2
  rw [hp, hd, hentry.1, hentry.2]
  simp [List.append_assoc]

/-! ### Whole-run structure from the initial state -/

theorem buildState_struct (tok : Nat → String) (t : FSTree) (hwf : FSTree.wf t = true) :
    (buildState tok t).dirPaths
        = [] :: (walkForest t.subdirs []).map WalkEntry.relParts ∧
      (buildState tok t).dirs
        = ((walkForest t.subdirs []).map WalkEntry.relParts).map mkDirRec := by
  cases t with
  | node n subs files =>
    have hwfparts : (subs.map FSTree.name).Nodup ∧ FSTree.wfForest subs = true := by
      rw [FSTree.wf] at hwf
      simpa using hwf
    unfold buildState
    rw [walkTree_node, runWalk_cons]
    have hentry :
        (processEntry tok initState ⟨[], files⟩).dirPaths = [[]] ∧
        (processEntry tok initState ⟨[], files⟩).dirs = [] := by
      rw [processEntry_eq]
      constructor
      · rw [processFiles_dirPaths]; rfl
      · rw [processFiles_dirs]; rfl
    have hB1 : ∀ q, listPre q [] → q ∈ (processEntry tok initState ⟨[], files⟩).dirPaths := by
      intro q hq
      rw [hentry.1, listPre_of_nil hq]
      simp
    have hB2 : ∀ q ∈ (processEntry tok initState ⟨[], files⟩).dirPaths,
        ∀ c ∈ subs, ¬ listPre ([] ++ [c.name]) q := by
      intro q hq c _ hcon
      rw [hentry.1] at hq
      simp at hq
      rw [hq] at hcon
      have := listPre_length hcon
      simp at this
    obtain ⟨hp, hd⟩ := forestRun tok subs []
      (fun c _ pre st => treeRun tok c pre st) hwfparts.2 hwfparts.1
      (processEntry tok initState ⟨[], files⟩) hB1 hB2
    rw [hp, hd, hentry.1, hentry.2]
    constructor
    · show [[]] ++ _ = _
      rfl
    · rfl

theorem forest_paths_ne_nil (subs : List FSTree) :
    ∀ p ∈ (walkForest subs []).map WalkEntry.relParts, p ≠ [] := by
  intro p hp
  simp only [List.mem_map] at hp
  obtain ⟨e, he, hpe⟩ := hp
  obtain ⟨c, _, hec⟩ := walkForest_mem subs [] e he
  have := walk_extends c ([] ++ [c.name]) e hec
  have hlen := listPre_length this
  intro hnil
  rw [hpe, hnil] at hlen
  simp at hlen

theorem buildState_dirs_paths (tok : Nat → String) (t : FSTree)
    (hwf : FSTree.wf t = true) :
    (buildState tok t).dirs.map DirRec.path
      = ((walkTree t []).map WalkEntry.relParts).filter (fun p => !p.isEmpty) := by
  obtain ⟨_, hd⟩ := buildState_struct tok t hwf
  rw [hd]
  have hL : (((walkForest t.subdirs []).map WalkEntry.relParts).map mkDirRec).map DirRec.path
      = (walkForest t.subdirs []).map WalkEntry.relParts := by
    rw [List.map_map]
    have : DirRec.path ∘ mkDirRec = id := by
      funext p
      rfl
    rw [this, List.map_id]
  rw [hL]
  cases t with
  | node n subs files =>
    rw [walkTree_node]
    show _ = List.filter _ (([] : List String) :: _)
    rw [List.filter_cons]
    simp only [List.isEmpty_nil, Bool.not_true, if_false]
    rw [List.filter_eq_self.mpr]
    · rfl
    · intro p hp
      have := forest_paths_ne_nil subs p hp
      simpa [List.isEmpty_iff] using this

theorem buildState_dirs_shape (tok : Nat → String) (t : FSTree)
    (hwf : FSTree.wf t = true) :
    ∀ d ∈ (buildState tok t).dirs, d = mkDirRec d.path ∧ d.path ≠ [] := by
  intro d hd
  obtain ⟨_, hds⟩ := buildState_struct tok t hwf
  rw [hds] at hd
  simp only [List.mem_map] at hd
  obtain ⟨p, hp, hpd⟩ := hd
  have hpath : d.path = p := by
    rw [← hpd]
    rfl
  constructor
  · rw [hpath, ← hpd]
  · rw [hpath]
    exact forest_paths_ne_nil t.subdirs p (List.mem_map.mpr hp)

theorem buildState_dirPaths_eq (tok : Nat → String) (t : FSTree)
    (hwf : FSTree.wf t = true) :
    (buildState tok t).dirPaths = [] :: (buildState tok t).dirs.map DirRec.path := by
  obtain ⟨hp, hd⟩ := buildState_struct tok t hwf
  rw [hp, hd, List.map_map]
  have : DirRec.path ∘ mkDirRec = id := by
    funext p
    rfl
  rw [this, List.map_id]

theorem buildState_pairs (tok : Nat → String) (t : FSTree) :
    pairsOf (buildState tok t)
      = (walkTree t []).flatMap (fun e => e.filenames.map (fun fn => (e.relParts, fn))) := by
  unfold buildState
  rw [runWalk_pairs]
  rfl

theorem buildState_exe (tok : Nat → String) (t : FSTree) :
    (buildState tok t).exe
      = ((buildState tok t).files.filter
          (fun f => isExeMatch f.dirParts f.filename)).getLast? := by
  unfold buildState
  exact runWalk_exe tok (walkTree t []) initState rfl

theorem buildState_ids (tok : Nat → String) (t : FSTree) :
    ((buildState tok t).files.map FileRec.fileId).Nodup := by
  unfold buildState
  exact (runWalk_ids tok (walkTree t []) initState (by simp [initState]) (by simp [initState])).1

theorem buildState_valid (tok : Nat → String)
    (htok : ∀ n, ∀ c ∈ (tok n).data, isWordChar c = true) (t : FSTree) :
    (∀ f ∈ (buildState tok t).files, validIdB f.fileId = true) ∧
      ∀ d ∈ (buildState tok t).dirs, validIdB d.dirId = true := by
  unfold buildState
  exact runWalk_valid tok htok (walkTree t []) initState
    (by simp [initState]) (by simp [initState])

theorem buildState_shape (tok : Nat → String) (t : FSTree) :
    ∀ f ∈ (buildState tok t).files, ∃ j,
      f.fileId = "File_" ++ sanitize_id (splitextStem f.filename) (tok j) ∨
      ∃ k, f.fileId = counterId (sanitize_id (splitextStem f.filename) (tok j)) k := by
  unfold buildState
  exact runWalk_shape tok (walkTree t []) initState (by simp [initState])

theorem buildState_refs_len (tok : Nat → String) (t : FSTree) :
    (buildState tok t).refs.length = totalFiles t + 1 := by
  unfold buildState
  rw [runWalk_refs_len]
  show initState.refs.length + _ = _
  have : initState.refs.length = 1 := rfl
  rw [this]
  unfold totalFiles
  omega

theorem buildState_shortcut_ref (tok : Nat → String) (t : FSTree) :
    "ApplicationShortcut" ∈ (buildState tok t).refs := by
  unfold buildState
  exact runWalk_refs_mem tok (walkTree t []) initState _ (by simp [initState])

/-! ### Remaining helper lemmas -/

theorem buildState_files_len (tok : Nat → String) (t : FSTree) :
    (buildState tok t).files.length = totalFiles t := by
  have hp := buildState_pairs tok t
  have h1 : (buildState tok t).files.length = (pairsOf (buildState tok t)).length := by
    unfold pairsOf
    simp
  have h2 : ∀ (es : List WalkEntry),
      (es.flatMap (fun e => e.filenames.map (fun fn => (e.relParts, fn)))).length
        = (es.map (fun e => e.filenames.length)).sum := by
    intro es
    induction es with
    | nil => simp
    | cons e r ih => simp [ih]
  rw [h1, hp, h2]
  rfl

theorem dirIdOf_sibling_ne {p1 p2 : List String} (h1 : p1 ≠ []) (h2 : p2 ≠ [])
    (hpar : p1.dropLast = p2.dropLast)
    (hsan : sanitize_id ("Dir_" ++ p1.getLastD "") ""
          ≠ sanitize_id ("Dir_" ++ p2.getLastD "") "") :
    dirIdOf p1 ≠ dirIdOf p2 := by
  have hl1 : 0 < p1.length := List.length_pos.mpr h1
  have hl2 : 0 < p2.length := List.length_pos.mpr h2
  have hlen : p1.length = p2.length := by
    have e1 := congrArg List.length hpar
    simp at e1
    omega
  unfold dirIdOf
  by_cases hbig : 1 < p1.length
  · rw [if_pos hbig, if_pos (by omega)]
    intro hcon
    rw [← hlen] at hcon
    have hstep1 := strAppendCancelRight hcon
    have hstep2 := strAppendCancelRight hstep1
    exact hsan hstep2
  · rw [if_neg hbig, if_neg (by omega)]
    exact hsan

theorem validIdB_all {s : String} (h : validIdB s = true) :
    ∀ c ∈ s.data, isWordChar c = true := by
  unfold validIdB at h
  simp only [Bool.and_eq_true, List.all_eq_true] at h
  exact h.1

theorem comp_data (s : String) :
    ("Comp_" ++ s).data = 'C' :: 'o' :: 'm' :: 'p' :: '_' :: s.data := by
  rw [String.data_append]
  rfl

theorem validIdB_comp {s : String} (hs : validIdB s = true) :
    validIdB ("Comp_" ++ s) = true := by
  refine validIdB_of_parts (comp_data s) ?_ (by decide)
  intro x hx
  rw [comp_data] at hx
  rcases List.mem_cons.mp hx with hx | hx
  · rw [hx]; decide
  rcases List.mem_cons.mp hx with hx | hx
  · rw [hx]; decide
  rcases List.mem_cons.mp hx with hx | hx
  · rw [hx]; decide
  rcases List.mem_cons.mp hx with hx | hx
  · rw [hx]; decide
  rcases List.mem_cons.mp hx with hx | hx
  · rw [hx]; decide
  · exact validIdB_all hs x hx

theorem generate_doc_exe (tok : Nat → String) (u : String) (t : FSTree) :
    (generate_wxs tok u t).1.exe = (buildState tok t).exe := by
  simp only [generate_wxs]
  cases h : (buildState tok t).exe <;> simp [h]

theorem generate_fields (tok : Nat → String) (u : String) (t : FSTree) :
    (generate_wxs tok u t).1.dirs = (buildState tok t).dirs ∧
      (generate_wxs tok u t).1.files = (buildState tok t).files ∧
      (generate_wxs tok u t).1.componentRefs = (buildState tok t).refs ∧
      (generate_wxs tok u t).2 = (buildState tok t).refs.length := by
  simp only [generate_wxs]
  cases h : (buildState tok t).exe <;> simp [h]

theorem generate_exe_some_doc (tok : Nat → String) (u : String) (t : FSTree)
    {e : FileRec} (h : (buildState tok t).exe = some e) :
    (generate_wxs tok u t).1.shortcut
        = some { scId := "ApplicationStartMenuShortcut", scName := "MView6",
                 target := "[INSTALLFOLDER]bin\\MView6.exe",
                 workDir := "INSTALLFOLDER" } ∧
      (generate_wxs tok u t).1.progIds = progIdGroups ∧
      (generate_wxs tok u t).1.warning = false := by
  simp only [generate_wxs]
  rw [h]
  exact ⟨rfl, rfl, rfl⟩

theorem generate_exe_none_doc (tok : Nat → String) (u : String) (t : FSTree)
    (h : (buildState tok t).exe = none) :
    (generate_wxs tok u t).1.shortcut = none ∧
      (generate_wxs tok u t).1.progIds = [] ∧
      (generate_wxs tok u t).1.warning = true ∧
      (generate_wxs tok u t).1.shortcutRegistry = false ∧
      (generate_wxs tok u t).1.removeFolder = false := by
  simp only [generate_wxs]
  rw [h]
  exact ⟨rfl, rfl, rfl, rfl, rfl⟩

theorem buildState_no_exe (tok : Nat → String) (t : FSTree)
    (hno : ∀ e ∈ walkTree t [], ∀ fn ∈ e.filenames, isExeMatch e.relParts fn = false) :
    (buildState tok t).exe = none := by
  rw [buildState_exe]
  have hfil : (buildState tok t).files.filter
      (fun f => isExeMatch f.dirParts f.filename) = [] := by
    rw [List.filter_eq_nil_iff]
    intro f hf
    have hpair : (f.dirParts, f.filename) ∈ pairsOf (buildState tok t) :=
      List.mem_map_of_mem _ hf
    rw [buildState_pairs] at hpair
    rw [List.mem_flatMap] at hpair
    obtain ⟨e, he, hpe⟩ := hpair
    simp only [List.mem_map] at hpe
    obtain ⟨fn, hfn, hfe⟩ := hpe
    have h1 := congrArg Prod.fst hfe
    have h2 := congrArg Prod.snd hfe
    simp at h1 h2
    rw [← h1, ← h2]
    rw [hno e he fn hfn]
    simp
  rw [hfil]
  rfl

/-! ### Claims -/

/-- C1 (amended).  Directory identifiers are computed from the path alone:
the sanitized own name with the `Dir_` marker, suffixed with the positional
depth index when the directory is not a top-level path component.  This does
not make them unique document-wide (see the counterexample); what holds is
that two distinct sibling directories whose sanitized names differ receive
distinct identifiers. -/
theorem claim_C1 (tok : Nat → String) (u : String) (t : FSTree)
    (hwf : FSTree.wf t = true) :
    (∀ d ∈ (generate_wxs tok u t).1.dirs, d.dirId = dirIdOf d.path) ∧
      ∀ d1 ∈ (generate_wxs tok u t).1.dirs, ∀ d2 ∈ (generate_wxs tok u t).1.dirs,
        d1.path ≠ d2.path → d1.path.dropLast = d2.path.dropLast →
        sanitize_id ("Dir_" ++ d1.name) "" ≠ sanitize_id ("Dir_" ++ d2.name) "" →
        d1.dirId ≠ d2.dirId := by
  have hf := (generate_fields tok u t).1
  rw [hf]
  have hshape := buildState_dirs_shape tok t hwf
  constructor
  · intro d hd
    have he := (hshape d hd).1
    conv_lhs => rw [he]
    rfl
  · intro d1 h1 d2 h2 hne hpar hsan
    obtain ⟨he1, hn1⟩ := hshape d1 h1
    obtain ⟨he2, hn2⟩ := hshape d2 h2
    have hid1 : d1.dirId = dirIdOf d1.path := by
      conv_lhs => rw [he1]
      rfl
    have hid2 : d2.dirId = dirIdOf d2.path := by
      conv_lhs => rw [he2]
      rfl
    have hnm1 : d1.name = d1.path.getLastD "" := by
      conv_lhs => rw [he1]
      rfl
    have hnm2 : d2.name = d2.path.getLastD "" := by
      conv_lhs => rw [he2]
      rfl
    rw [hid1, hid2]
    rw [hnm1, hnm2] at hsan
    exact dirIdOf_sibling_ne hn1 hn2 hpar hsan

/-- C1 counterexample: in the tree with branches `a/x` and `b/x`, two distinct
DirectoryNode objects produced in one run carry the same identifier
(`Dir_x_1`), refuting document-wide uniqueness. -/
theorem claim_C1_counterexample :
    mkDirRec ["a", "x"] ∈ (generate_wxs tok0 "u" treeDup).1.dirs ∧
      mkDirRec ["b", "x"] ∈ (generate_wxs tok0 "u" treeDup).1.dirs ∧
      mkDirRec ["a", "x"] ≠ mkDirRec ["b", "x"] ∧
      (mkDirRec ["a", "x"]).dirId = (mkDirRec ["b", "x"]).dirId := by
  decide

/-- C1 witness: the amended sibling-distinctness applied to the concrete
standard tree, separating `Dir_bin` from `Dir_share`. -/
theorem claim_C1_witness :
    FSTree.wf treeStd = true ∧
      (mkDirRec ["bin"]).dirId ≠ (mkDirRec ["share"]).dirId := by
  refine ⟨by decide, ?_⟩
  exact (claim_C1 tok0 "u" treeStd (by decide)).2
    (mkDirRec ["bin"]) (by decide) (mkDirRec ["share"]) (by decide)
    (by decide) (by decide) (by decide)

/-- C2 (amended).  The ExecutableReference is the LAST file in traversal
order matching the executable test (name equals `mview6.exe` case-insensitively
and the relative directory path contains a segment `bin` case-insensitively):
the assignment `exe_component = component` overwrites unconditionally, so with
several matches the last one wins, not the first. -/
theorem claim_C2 (tok : Nat → String) (t : FSTree) :
    (buildState tok t).exe
      = ((buildState tok t).files.filter
          (fun f => isExeMatch f.dirParts f.filename)).getLast? :=
  buildState_exe tok t

/-- C2 counterexample: with matches at `bin/MView6.exe` (walked first) and
`zz/bin/mview6.exe` (walked last), the ExecutableReference is the last match,
not the first one. -/
theorem claim_C2_counterexample :
    ((buildState tok0 treeTwoExe).files.filter
        (fun f => isExeMatch f.dirParts f.filename)).head?
        = some ⟨["bin"], "MView6.exe", "File_MView6"⟩ ∧
      (buildState tok0 treeTwoExe).exe
        = some ⟨["zz", "bin"], "mview6.exe", "File_mview6"⟩ ∧
      (buildState tok0 treeTwoExe).exe
        ≠ ((buildState tok0 treeTwoExe).files.filter
            (fun f => isExeMatch f.dirParts f.filename)).head? := by
  decide

/-- C3 (amended).  When an executable is found, the emitted shortcut target
and every registry association command carry the FIXED literal path
`[INSTALLFOLDER]bin\MView6.exe`, independent of where the matched file was
found; this equals the matched file's installed path exactly when the file
sits at `bin/MView6.exe` with that exact spelling. -/
theorem claim_C3 (tok : Nat → String) (u : String) (t : FSTree) (e : FileRec)
    (h : (generate_wxs tok u t).1.exe = some e) :
    (generate_wxs tok u t).1.shortcut
        = some { scId := "ApplicationStartMenuShortcut", scName := "MView6",
                 target := "[INSTALLFOLDER]bin\\MView6.exe",
                 workDir := "INSTALLFOLDER" } ∧
      (∀ g ∈ (generate_wxs tok u t).1.progIds,
        g.regValue = "[INSTALLFOLDER]bin\\MView6.exe \"%1\"") ∧
      (e.dirParts = ["bin"] → e.filename = "MView6.exe" →
        specInstalledPath e = "[INSTALLFOLDER]bin\\MView6.exe") := by
  rw [generate_doc_exe] at h
  obtain ⟨hs, hp, _⟩ := generate_exe_some_doc tok u t h
  refine ⟨hs, ?_, ?_⟩
  · rw [hp]
    decide
  · intro h1 h2
    unfold specInstalledPath
    rw [h1, h2]
    rfl

/-- C3 counterexample: with the single matching executable at
`usr/bin/mview6.exe`, the emitted shortcut target is not that file's
installed path. -/
theorem claim_C3_counterexample :
    (generate_wxs tok0 "u" treeUsrBin).1.shortcut.map Shortcut.target
        = some "[INSTALLFOLDER]bin\\MView6.exe" ∧
      (generate_wxs tok0 "u" treeUsrBin).1.exe.map specInstalledPath
        = some "[INSTALLFOLDER]usr\\bin\\mview6.exe" ∧
      (generate_wxs tok0 "u" treeUsrBin).1.shortcut.map Shortcut.target
        ≠ (generate_wxs tok0 "u" treeUsrBin).1.exe.map specInstalledPath := by
  decide

/-- C3 witness: the amended statement applied to the standard layout
`bin/MView6.exe`. -/
theorem claim_C3_witness :
    (generate_wxs tok0 "u" treeStd).1.exe
        = some ⟨["bin"], "MView6.exe", "File_MView6"⟩ ∧
      (generate_wxs tok0 "u" treeStd).1.shortcut
        = some { scId := "ApplicationStartMenuShortcut", scName := "MView6",
                 target := "[INSTALLFOLDER]bin\\MView6.exe",
                 workDir := "INSTALLFOLDER" } := by
  refine ⟨by decide, ?_⟩
  exact (claim_C3 tok0 "u" treeStd ⟨["bin"], "MView6.exe", "File_MView6"⟩ (by decide)).1

/-- C4.  File identifiers come from the sanitized stem with the fixed
`File_` marker, retried with a monotonically increasing counter suffix on a
collision with the used-identifier set; the retry loop finds an unused
identifier, and all FileEntry identifiers of one run are pairwise distinct. -/
theorem claim_C4 (tok : Nat → String) (u : String) (t : FSTree) :
    ((generate_wxs tok u t).1.files.map FileRec.fileId).Nodup ∧
      ∀ f ∈ (generate_wxs tok u t).1.files, ∃ j,
        f.fileId = "File_" ++ sanitize_id (splitextStem f.filename) (tok j) ∨
        ∃ k, f.fileId = counterId (sanitize_id (splitextStem f.filename) (tok j)) k := by
  have hf := (generate_fields tok u t).2.1
  rw [hf]
  exact ⟨buildState_ids tok t, buildState_shape tok t⟩

/-- C5.  Assuming the random tokens consist of word characters (uuid4 hex
strings do), every generated directory, file and component identifier consists
only of ASCII letters, digits and underscores and never starts with a digit. -/
theorem claim_C5 (tok : Nat → String) (u : String) (t : FSTree)
    (htok : ∀ n, ∀ c ∈ (tok n).data, isWordChar c = true) :
    (∀ d ∈ (generate_wxs tok u t).1.dirs, validIdB d.dirId = true) ∧
      ∀ f ∈ (generate_wxs tok u t).1.files,
        validIdB f.fileId = true ∧ validIdB ("Comp_" ++ f.fileId) = true := by
  constructor
  · rw [(generate_fields tok u t).1]
    exact (buildState_valid tok htok t).2
  · rw [(generate_fields tok u t).2.1]
    intro f hf
    have h := (buildState_valid tok htok t).1 f hf
    exact ⟨h, validIdB_comp h⟩

/-- C5 witness: the theorem applied to the standard tree with a concrete hex
token stream. -/
theorem claim_C5_witness :
    (∀ n, ∀ c ∈ (tok0 n).data, isWordChar c = true) ∧
      ∀ d ∈ (generate_wxs tok0 "u" treeStd).1.dirs, validIdB d.dirId = true := by
  have htok : ∀ n, ∀ c ∈ (tok0 n).data, isWordChar c = true := by
    intro n
    show ∀ c ∈ ("abcdef" : String).data, isWordChar c = true
    decide
  exact ⟨htok, (claim_C5 tok0 "u" treeStd htok).1⟩

/-- C6.  For a well-formed input tree: the created Directory elements are, in
walk order, exactly the non-root directories yielded by the recursive walk
(empty directories included), each parented under the element of its immediate
parent (`[]`, the walk root, standing for the top-level install folder); the
directory dictionary maps the root to the install folder and every other
walked directory to its own element; and the created file components are, in
walk order, exactly the files yielded by the walk, each under its containing
directory's element. -/
theorem claim_C6 (tok : Nat → String) (u : String) (t : FSTree)
    (hwf : FSTree.wf t = true) :
    ((generate_wxs tok u t).1.dirs.map DirRec.path
        = ((walkTree t []).map WalkEntry.relParts).filter (fun p => !p.isEmpty)) ∧
      (∀ d ∈ (generate_wxs tok u t).1.dirs,
        d.parent = d.path.dropLast ∧ d.path.getLast? = some d.name) ∧
      ((buildState tok t).dirPaths
        = [] :: (generate_wxs tok u t).1.dirs.map DirRec.path) ∧
      ((generate_wxs tok u t).1.files.map (fun f => (f.dirParts, f.filename))
        = (walkTree t []).flatMap
            (fun e => e.filenames.map (fun fn => (e.relParts, fn)))) := by
  have hf := generate_fields tok u t
  refine ⟨?_, ?_, ?_, ?_⟩
  · rw [hf.1]
    exact buildState_dirs_paths tok t hwf
  · rw [hf.1]
    intro d hd
    obtain ⟨he, hne⟩ := buildState_dirs_shape tok t hwf d hd
    constructor
    · conv_lhs => rw [he]
      rfl
    · have hnm : d.name = d.path.getLastD "" := by
        conv_lhs => rw [he]
        rfl
      rw [hnm]
      cases hx : d.path.getLast? with
      | none =>
        exact absurd (List.getLast?_eq_none_iff.mp hx) hne
      | some x =>
        rw [List.getLastD_eq_getLast?, hx]
        rfl
  · rw [hf.1]
    exact buildState_dirPaths_eq tok t hwf
  · rw [hf.2.1]
    exact buildState_pairs tok t

/-- C6 witness: the theorem applied to the standard tree. -/
theorem claim_C6_witness :
    FSTree.wf treeStd = true ∧
      (generate_wxs tok0 "u" treeStd).1.dirs.map DirRec.path
        = ((walkTree treeStd []).map WalkEntry.relParts).filter (fun p => !p.isEmpty) := by
  refine ⟨by decide, ?_⟩
  exact (claim_C6 tok0 "u" treeStd (by decide)).1

/-- C7.  When no walked file matches the executable test, the run is
non-fatal: the document carries the warning, contains no shortcut or
association records, is still written, and the process exits with status 0. -/
theorem claim_C7 (tok : Nat → String) (u : String) (t : FSTree)
    (hno : ∀ e ∈ walkTree t [], ∀ fn ∈ e.filenames, isExeMatch e.relParts fn = false) :
    (generate_wxs tok u t).1.warning = true ∧
      (generate_wxs tok u t).1.shortcut = none ∧
      (generate_wxs tok u t).1.progIds = [] ∧
      exitCode (runMain tok u true true t) = 0 ∧
      outputWritten (runMain tok u true true t) = true := by
  have hnone := buildState_no_exe tok t hno
  obtain ⟨h1, h2, h3, _, _⟩ := generate_exe_none_doc tok u t hnone
  refine ⟨h3, h1, h2, ?_, ?_⟩
  · simp [runMain, exitCode]
  · simp [runMain, outputWritten]

/-- C7 witness: the theorem applied to a tree without any executable. -/
theorem claim_C7_witness :
    (∀ e ∈ walkTree treeNoExe [], ∀ fn ∈ e.filenames,
        isExeMatch e.relParts fn = false) ∧
      (generate_wxs tok0 "u" treeNoExe).1.warning = true := by
  have h : ∀ e ∈ walkTree treeNoExe [], ∀ fn ∈ e.filenames,
      isExeMatch e.relParts fn = false := by
    decide
  exact ⟨h, (claim_C7 tok0 "u" treeNoExe h).1⟩

/-- C8.  When the root path argument does not name a directory, the run
reports the invalid root, exits with status 1, and writes no output file. -/
theorem claim_C8 (tok : Nat → String) (u : String) (t : FSTree) :
    runMain tok u true false t = RunResult.invalidRoot ∧
      exitCode (runMain tok u true false t) = 1 ∧
      outputWritten (runMain tok u true false t) = false :=
  ⟨rfl, rfl, rfl⟩

/-- C9 (amended).  When an executable is found, the emitted ProgId groups are
one per distinct content type of the fixed extension list (9 groups), and
every extension of the list appears in exactly one group's extension records;
each extension record carries an open verb with the clicked file (`"%1"`) as
argument whose target is the FIXED literal file id `File_MView6`, not the
detected executable's component: the two coincide exactly when the detected
executable's file id is `File_MView6` (see the counterexample for a run where
they differ). -/
theorem claim_C9 (tok : Nat → String) (u : String) (t : FSTree) (e : FileRec)
    (h : (generate_wxs tok u t).1.exe = some e) :
    (generate_wxs tok u t).1.progIds = progIdGroups ∧
      progIdGroups.length = (EXTENSIONS.map Prod.snd).dedup.length ∧
      (∀ p ∈ EXTENSIONS,
        (progIdGroups.flatMap ProgIdRec.exts).countP
          (fun er => er.extId == lstripDot (pyLower p.1)) = 1) ∧
      (∀ g ∈ progIdGroups, ∀ er ∈ g.exts,
        er.verbCommand = "Open" ∧ er.verbTargetFile = "File_MView6" ∧
          er.verbArg = "\"%1\"") ∧
      (e.fileId = "File_MView6" →
        ∀ g ∈ progIdGroups, ∀ er ∈ g.exts, er.verbTargetFile = e.fileId) := by
  rw [generate_doc_exe] at h
  refine ⟨(generate_exe_some_doc tok u t h).2.1, by decide, by decide, by decide, ?_⟩
  intro hid
  rw [hid]
  decide

/-- C9 counterexample: at `usr/bin/mview6.exe` the detected executable's file
id is `File_mview6`, yet every emitted open verb targets the literal
`File_MView6`, an id that no file of the run carries — the open actions do
not target the executable. -/
theorem claim_C9_counterexample :
    (generate_wxs tok0 "u" treeUsrBin).1.exe.map FileRec.fileId
        = some "File_mview6" ∧
      (∀ g ∈ (generate_wxs tok0 "u" treeUsrBin).1.progIds, ∀ er ∈ g.exts,
        er.verbTargetFile = "File_MView6") ∧
      "File_MView6" ∉ (generate_wxs tok0 "u" treeUsrBin).1.files.map FileRec.fileId := by
  decide

/-- C9 witness: the theorem applied to the standard tree. -/
theorem claim_C9_witness :
    (generate_wxs tok0 "u" treeStd).1.exe
        = some ⟨["bin"], "MView6.exe", "File_MView6"⟩ ∧
      (generate_wxs tok0 "u" treeStd).1.progIds = progIdGroups := by
  refine ⟨by decide, ?_⟩
  exact (claim_C9 tok0 "u" treeStd ⟨["bin"], "MView6.exe", "File_MView6"⟩ (by decide)).1

/-- C10.  The shortcut component and its ComponentRef are emitted
unconditionally (when no executable is detected the component is present but
empty), and the count in the success message equals the number of walked
files plus one, the shortcut's ComponentRef being counted despite the
message's "files" label. -/
theorem claim_C10 (tok : Nat → String) (u : String) (t : FSTree) :
    (generate_wxs tok u t).2 = totalFiles t + 1 ∧
      "ApplicationShortcut" ∈ (generate_wxs tok u t).1.componentRefs ∧
      printedCount (runMain tok u true true t) = some (totalFiles t + 1) ∧
      ((generate_wxs tok u t).1.exe = none →
        (generate_wxs tok u t).1.shortcut = none ∧
          (generate_wxs tok u t).1.shortcutRegistry = false ∧
          (generate_wxs tok u t).1.removeFolder = false) := by
  have hf := generate_fields tok u t
  have hcount : (generate_wxs tok u t).2 = totalFiles t + 1 := by
    rw [hf.2.2.2, buildState_refs_len]
  refine ⟨hcount, ?_, ?_, ?_⟩
  · rw [hf.2.2.1]
    exact buildState_shortcut_ref tok t
  · simp only [runMain, printedCount, Bool.not_true, Bool.false_eq_true, if_false]
    rw [hcount]
  · intro hex
    rw [generate_doc_exe] at hex
    obtain ⟨h1, _, _, h4, h5⟩ := generate_exe_none_doc tok u t hex
    exact ⟨h1, h4, h5⟩

/-- C10 witness: the theorem applied to a tree without an executable, showing
the count of 2 = 1 file + 1 and the empty shortcut component. -/
theorem claim_C10_witness :
    (generate_wxs tok0 "u" treeNoExe).2 = totalFiles treeNoExe + 1 ∧
      (generate_wxs tok0 "u" treeNoExe).1.shortcut = none := by
  have h := claim_C10 tok0 "u" treeNoExe
  exact ⟨h.1, (h.2.2.2 (by decide)).1⟩

end CreateWxs
